import Mathlib

/-!
Verification of the VPIC accumulator-reduction SPU pipeline
(`_SPUEAR_reduce_accumulators_pipeline_spu`) and of the Langevin collision
operator (`langevin_pipeline` / `apply_langevin`).

Modelling conventions.

* Main storage is record-granular: `AMem F := ℕ → ARec F`, where address
  `a` holds the `accumulator_t` that the C code keeps at byte offset
  `a * sizeof(accumulator_t)` from the base pointer `args->a`.  Record `i`
  of array `r` therefore lives at address `i + r * s_array`
  (`a + i*si + r*sa` in the C, with `si = sizeof(accumulator_t)` and
  `sa = si * args->s_array`).
* An accumulator record is its three field quadwords (`jx[4]`, `jy[4]`,
  `jz[4]` — `f[4*n+0..2]` in local store): `ARec F := Fin 3 → Fin 4 → F`.
  The fourth quadword of `accumulator_t` is padding and is not modelled.
* The scalar single- and double-precision types and the five SPU
  intrinsics the kernel uses (`spu_extend`, `spu_add`, `spu_roundtf`,
  `spu_or`, and `spu_shuffle` with the fixed `perm` of line 41) are
  abstracted by the structure `SpuOps`.  The bitwise `spu_or` is only
  ever applied to vectors whose set lanes are disjoint (the other lanes
  hold the all-zero bit pattern written by `spu_roundtf`), which the two
  `orf` laws capture.  Exact integer arithmetic (`intOps`) is one
  faithful instance for inputs on which IEEE arithmetic is exact.
* The MFC DMA engine is modelled synchronously: `mfc_get`/`mfc_put` copy
  immediately and are recorded in an event trace; the tag waits
  (`mfc_write_tag_mask`/`mfc_read_tag_status_all`) are the code's
  mechanism for making the asynchronous engine behave like this
  sequential order and are no-ops here.
* C `for` loops become structural recursions on the iteration count
  (`forWrite`, `primeGets`, `rLoop`, `blockLoop`, `particleLoop`); the
  outer block loop `for(; i<i1; i+=NB)` runs `⌈(i1-i)/NB⌉` times.
* `DISTRIBUTE` and `accumulators_n_block` come from headers that are not
  part of this repository snapshot; `DISTRIBUTE` is modelled from the
  spec (section 4.1) and the block size `NB` is kept as a parameter.
-/

namespace VPIC

/-! ### Work partitioner -/

/-- Modelled from the spec: number of blocks of size `B` needed to cover
`[0, n)` (the last block may be partial). -/
def nBlocks (n B : ℕ) : ℕ := (n + (B - 1)) / B

/-- Modelled from the spec: the `DISTRIBUTE` macro is not in the source
snapshot (only its call site at line 30 of the kernel is).  Per spec
section 4.1 it deterministically assigns rank `p` of `P` a contiguous,
block-aligned sub-range of `[0, n)`; blocks are divided in rank order,
rank `p` starting at block `⌊nBlocks·p/P⌋`.  `dStart n B p P` is the
first record index of rank `p`'s range. -/
def dStart (n B p P : ℕ) : ℕ := min (B * (nBlocks n B * p / P)) n

/-- Modelled from the spec: `DISTRIBUTE(n, B, p, P, i, len)` returns the
start index and length of rank `p`'s contiguous sub-range. -/
def DISTRIBUTE (n B p P : ℕ) : ℕ × ℕ :=
  (dStart n B p P, dStart n B (p + 1) P - dStart n B p P)

/-! ### SPU data types and intrinsics -/

/-- Abstract single-precision (`F`) and double-precision (`D`) scalars
together with the scalar semantics of the SPU intrinsics used by the
kernel: `ext` is the exact float→double conversion lane of `spu_extend`,
`dadd` the double add lane of `spu_add`, `rnd` the double→float rounding
lane of `spu_roundtf`, `fzero` the all-zero bit pattern `spu_roundtf`
leaves in odd word slots, and `orf` the bitwise-or lane of `spu_or`,
which acts as identity against the all-zero pattern. -/
structure SpuOps (F D : Type) where
  ext : F → D
  dadd : D → D → D
  rnd : D → F
  fzero : F
  orf : F → F → F
  orf_zero_left : ∀ x, orf fzero x = x
  orf_zero_right : ∀ x, orf x fzero = x

/-- One field quadword: `vec_float4`. -/
abbrev VecF (F : Type) := Fin 4 → F

/-- One double-precision pair: `vec_double2`. -/
abbrev VecD (D : Type) := Fin 2 → D

/-- One accumulator record's three field quadwords (`f[4n+0..2]`). -/
abbrev ARec (F : Type) := Fin 3 → VecF F

/-- One record's six double-precision pairs (`d[6n+0..5]`). -/
abbrev DRec (D : Type) := Fin 6 → VecD D

/-- Main storage, record-granular. -/
abbrev AMem (F : Type) := ℕ → ARec F

variable {F D : Type}

/-- Line 41: `perm = {4,5,6,7, 0,1,2,3, 12,13,14,15, 8,9,10,11}` swaps
word pairs 0↔1 and 2↔3; `spu_shuffle(v,v,perm)` applies it. -/
def spu_shuffle_perm (v : VecF F) : VecF F := ![v 1, v 0, v 3, v 2]

/-- `spu_extend` converts the even word slots (0 and 2) to double. -/
def spu_extend (O : SpuOps F D) (v : VecF F) : VecD D := ![O.ext (v 0), O.ext (v 2)]

/-- `spu_add` on `vec_double2`. -/
def spu_add (O : SpuOps F D) (x y : VecD D) : VecD D :=
  ![O.dadd (x 0) (y 0), O.dadd (x 1) (y 1)]

/-- `spu_roundtf` rounds each double to float into word slots 0 and 2,
leaving the all-zero pattern in slots 1 and 3. -/
def spu_roundtf (O : SpuOps F D) (d : VecD D) : VecF F :=
  ![O.rnd (d 0), O.fzero, O.rnd (d 1), O.fzero]

/-- `spu_or`, lanewise bitwise or. -/
def spu_or (O : SpuOps F D) (x y : VecF F) : VecF F :=
  ![O.orf (x 0) (y 0), O.orf (x 1) (y 1), O.orf (x 2) (y 2), O.orf (x 3) (y 3)]

/-- Lines 60-70, body for record `n`: store array 0's fields of this
record in double precision (`d[6n+0..5]`). -/
def dInit (O : SpuOps F D) (rec : ARec F) : DRec D :=
  ![spu_extend O (rec 0), spu_extend O (spu_shuffle_perm (rec 0)),
    spu_extend O (rec 1), spu_extend O (spu_shuffle_perm (rec 1)),
    spu_extend O (rec 2), spu_extend O (spu_shuffle_perm (rec 2))]

/-- Lines 85-95, body for record `n` of array `r`: add array `r`'s fields
of this record into the running double-precision sums. -/
def dStep (O : SpuOps F D) (d : DRec D) (rec : ARec F) : DRec D :=
  ![spu_add O (d 0) (spu_extend O (rec 0)),
    spu_add O (d 1) (spu_extend O (spu_shuffle_perm (rec 0))),
    spu_add O (d 2) (spu_extend O (rec 1)),
    spu_add O (d 3) (spu_extend O (spu_shuffle_perm (rec 1))),
    spu_add O (d 4) (spu_extend O (rec 2)),
    spu_add O (d 5) (spu_extend O (spu_shuffle_perm (rec 2)))]

/-- Lines 108-115, body for record `n`: round the six double-precision
sums back to single precision and merge them into the three output
quadwords `g[4n+0..2]`. -/
def gRec (O : SpuOps F D) (d : DRec D) : ARec F :=
  ![spu_or O (spu_roundtf O (d 0)) (spu_shuffle_perm (spu_roundtf O (d 1))),
    spu_or O (spu_roundtf O (d 2)) (spu_shuffle_perm (spu_roundtf O (d 3))),
    spu_or O (spu_roundtf O (d 4)) (spu_shuffle_perm (spu_roundtf O (d 5)))]

/-- Which field quadword the double pair `d[6n+j]` belongs to (comment at
lines 18-20: pairs `0 2 / 1 3` per quadword). -/
def qIdx : Fin 6 → Fin 3 := ![0, 0, 1, 1, 2, 2]

/-- Which word lane of its quadword each half of `d[6n+j]` holds. -/
def lIdx : Fin 6 → Fin 2 → Fin 4 := ![![0, 2], ![1, 3], ![0, 2], ![1, 3], ![0, 2], ![1, 3]]

/-- The double pair holding quadword `q`'s lane `l`. -/
def dIdx : Fin 3 → Fin 4 → Fin 6 := ![![0, 1, 0, 1], ![2, 3, 2, 3], ![4, 5, 4, 5]]

/-- The half of that double pair holding quadword `q`'s lane `l`. -/
def hIdx : Fin 3 → Fin 4 → Fin 2 := fun _ => ![0, 0, 1, 1]

/-! ### DMA model and the kernel -/

/-- A DMA transfer event: `get r i` is the `mfc_get` of array `r`'s block
starting at record `i` (tag `r`); `put i` is the `mfc_put` of the reduced
block starting at record `i` (tag `na`). -/
inductive Ev where
  | get (r i : ℕ) : Ev
  | put (i : ℕ) : Ev
deriving DecidableEq

/-- `mfc_get`: copy `NB` records from main storage starting at record
address `src` into local-store record slots `[dst, dst+NB)`. -/
def dmaGet (NB : ℕ) (fbuf : ℕ → ARec F) (mem : AMem F) (dst src : ℕ) : ℕ → ARec F :=
  fun s => if dst ≤ s ∧ s < dst + NB then mem (src + (s - dst)) else fbuf s

/-- `mfc_put`: copy `NB` records from a local buffer to main storage
record addresses `[dst, dst+NB)`. -/
def dmaPut (NB : ℕ) (mem : AMem F) (g : ℕ → ARec F) (dst : ℕ) : AMem F :=
  fun a => if dst ≤ a ∧ a < dst + NB then g (a - dst) else mem a

/-- A `for( n = m0; n < m0+k; n++ ) buf[n] = body(n, buf[n]);` loop over a
local buffer. -/
def forWrite {α : Type} (body : ℕ → α → α) : ℕ → ℕ → (ℕ → α) → ℕ → α
  | _, 0, buf => buf
  | m, k + 1, buf => forWrite body (m + 1) k (Function.update buf m (body m (buf m)))

/-- Line 47: `for( r=0; r<na; r++ ) mfc_get( f+4*NB*r, a+i*si+r*sa, NB*si, r, 0, 0 );`
with `k` iterations left and current array index `r`.  Returns the filled
local store and the trace of issued gets. -/
def primeGets (NB s_array : ℕ) (mem : AMem F) (i : ℕ) :
    ℕ → ℕ → (ℕ → ARec F) → (ℕ → ARec F) × List Ev
  | _, 0, fbuf => (fbuf, [])
  | r, k + 1, fbuf =>
      let res := primeGets NB s_array mem i (r + 1) k
        (dmaGet NB fbuf mem (NB * r) (i + r * s_array))
      (res.1, Ev.get r i :: res.2)

/-- Lines 44-47: begin loading the accumulators for the initial block
(all `na` arrays), if this rank's range `[i, i1)` is non-empty. -/
def primePhase (NB na s_array : ℕ) (mem : AMem F) (fbuf0 : ℕ → ARec F) (i i1 : ℕ) :
    (ℕ → ARec F) × List Ev :=
  if i < i1 then primeGets NB s_array mem i 0 na fbuf0 else (fbuf0, [])

/-- Lines 79-98: `for( r=1; r<na; r++ )` with `k` iterations left and
current array index `r`.  Each iteration waits for array `r`'s block
(synchronous here), adds it into `d` (lines 85-95), and if a next block
exists begins loading array `r`'s next block (line 97). -/
def rLoop (O : SpuOps F D) (NB s_array i i1 : ℕ) (mem : AMem F) :
    ℕ → ℕ → (ℕ → ARec F) → (ℕ → DRec D) → List Ev →
    (ℕ → ARec F) × (ℕ → DRec D) × List Ev
  | _, 0, fbuf, dbuf, tr => (fbuf, dbuf, tr)
  | r, k + 1, fbuf, dbuf, tr =>
      let dbuf1 := forWrite (fun m dd => dStep O dd (fbuf (NB * r + m))) 0 NB dbuf
      let st := if i + NB < i1 then
          (dmaGet NB fbuf mem (NB * r) (i + NB + r * s_array), tr ++ [Ev.get r (i + NB)])
        else (fbuf, tr)
      rLoop O NB s_array i i1 mem (r + 1) k st.1 dbuf1 st.2

/-- Lines 51-118: the per-block loop `for( ; i<i1; i+=NB )`, with `k`
iterations left and current block start `i`.  Per iteration: wait for
array 0's block and convert it to double precision (lines 57-70), begin
loading array 0's next block (line 72), fold in arrays `1..na-1`
(lines 79-98), wait for the previous output write, convert the sums to
single precision (lines 105-115), and begin writing the block out
(line 117). -/
def blockLoop (O : SpuOps F D) (NB na s_array i1 : ℕ) :
    ℕ → ℕ → AMem F → (ℕ → ARec F) → (ℕ → DRec D) → (ℕ → ARec F) → List Ev →
    AMem F × List Ev
  | 0, _, mem, _, _, _, tr => (mem, tr)
  | k + 1, i, mem, fbuf, dbuf, g, tr =>
      let dbuf1 := forWrite (fun m _ => dInit O (fbuf m)) 0 NB dbuf
      let st1 := if i + NB < i1 then
          (dmaGet NB fbuf mem 0 (i + NB), tr ++ [Ev.get 0 (i + NB)])
        else (fbuf, tr)
      let st2 := rLoop O NB s_array i i1 mem 1 (na - 1) st1.1 dbuf1 st1.2
      let g1 := forWrite (fun m _ => gRec O (st2.2.1 m)) 0 NB g
      blockLoop O NB na s_array i1 k (i + NB) (dmaPut NB mem g1 i) st2.1 st2.2.1 g1
        (st2.2.2 ++ [Ev.put i])

/-- Line 8: `#define MAX_ARRAY 11`. -/
def MAX_ARRAY : ℕ := 11

/-- `_SPUEAR_reduce_accumulators_pipeline_spu` (lines 22-119).  `fbuf0`,
`dbuf0` and `g0` are the arbitrary initial contents of the three
`SPU_MALLOC`ed local buffers `f`, `d`, `g`.  Returns the final main
storage and the trace of DMA transfers issued.  The guards of lines
34-35 return before any transfer; `DISTRIBUTE` (line 30) yields this
rank's range `[i, i1)`. -/
def reduce_accumulators_pipeline (O : SpuOps F D) (NB n na s_array : ℕ)
    (pipeline_rank n_pipeline : ℕ) (mem : AMem F)
    (fbuf0 : ℕ → ARec F) (dbuf0 : ℕ → DRec D) (g0 : ℕ → ARec F) :
    AMem F × List Ev :=
  let i := (DISTRIBUTE n NB pipeline_rank n_pipeline).1
  let i1 := i + (DISTRIBUTE n NB pipeline_rank n_pipeline).2
  if MAX_ARRAY < na then (mem, [])
  else if na < 2 then (mem, [])
  else
    let pr := primePhase NB na s_array mem fbuf0 i i1
    blockLoop O NB na s_array i1 ((i1 - i + (NB - 1)) / NB) i mem pr.1 dbuf0 g0 pr.2

/-- Spec-side reference reduction (spec section 8, claim C1): convert
each array's field value to double precision, sum in increasing
array-index order, and round the sum back to single precision. -/
def orderedReduce (O : SpuOps F D) (x0 : F) (xs : List F) : F :=
  O.rnd (List.foldl (fun acc x => O.dadd acc (O.ext x)) (O.ext x0) xs)

/-- The field value the kernel stores at record address `a`: the ordered
reduction of the `na` arrays' record-`a` fields read from `mem`. -/
def outVal (O : SpuOps F D) (mem : AMem F) (s_array na a : ℕ) : ARec F :=
  fun q l =>
    O.rnd (List.foldl (fun acc r => O.dadd acc (O.ext (mem (a + r * s_array) q l)))
      (O.ext (mem a q l)) (List.range' 1 (na - 1)))

/-- Number of records covered by whole blocks over a range of length
`len` (the kernel transfers whole `NB`-record blocks). -/
def blockSpan (NB len : ℕ) : ℕ := ((len + (NB - 1)) / NB) * NB

/-- The trace of DMA transfers issued by the per-block loop starting at
block `i` with `k` iterations left. -/
def blockTrace (NB na i1 : ℕ) : ℕ → ℕ → List Ev
  | _, 0 => []
  | i, k + 1 =>
      (if i + NB < i1 then (List.range na).map (fun r => Ev.get r (i + NB)) else []) ++
        Ev.put i :: blockTrace NB na i1 (i + NB) k

/-! ### Concrete instance for witnesses

For inputs whose field values are small integers, IEEE single/double
arithmetic is exact, so exact integer arithmetic is a faithful instance
of `SpuOps`: conversion is the identity, rounding is the identity, the
all-zero bit pattern is `0`, and `spu_or` against an all-zero operand is
addition with `0`. -/

def intOps : SpuOps ℤ ℤ :=
  ⟨fun x => x, fun x y => x + y, fun x => x, 0, fun x y => x + y,
    fun x => zero_add x, fun x => add_zero x⟩

def zRec : ARec ℤ := fun _ _ => 0

def zDRec : DRec ℤ := fun _ _ => 0

def zBufA : ℕ → ARec ℤ := fun _ => zRec

def zBufD : ℕ → DRec ℤ := fun _ => zDRec

/-- Storage holding `a` in every field of the record at address `a`. -/
def memLin : AMem ℤ := fun a _ _ => (a : ℤ)

def oneBufA : ℕ → ARec ℤ := fun _ _ _ => 1

def oneBufD : ℕ → DRec ℤ := fun _ _ _ => 1

/-- Storage for the end-to-end scenario: `n = 64`, `s_array = 64`,
`na = 3`; array 0 all ones, array 1 all twos, array 2 all threes. -/
def memC8 : AMem ℤ := fun a _ _ => if a < 64 then 1 else if a < 128 then 2 else 3

/-! ### Langevin collision operator (part_001) -/

/-- Lines 71-73: the particle sub-range bound
`(int)( 0.5 + ((double)np/(double)n_pipeline) * r )`, modelled in exact
arithmetic: `⌊ np·r/P + 1/2 ⌋ = (2·np·r + P) / (2·P)`. -/
def langevin_bounds (np n_pipeline r : ℕ) : ℕ :=
  (2 * np * r + n_pipeline) / (2 * n_pipeline)

/-- Lines 77-81: `for( ; i<i1; i++ )` updating momenta, with `k`
iterations left, current particle `i`, and `c` normal draws consumed so
far from this rank's RNG stream (three per particle, in ux, uy, uz
order). -/
def particleLoop (decay drive : ℚ) (rng : ℕ → ℚ) :
    ℕ → ℕ → ℕ → (ℕ → ℚ × ℚ × ℚ) → ℕ → ℚ × ℚ × ℚ
  | _, 0, _, p => p
  | i, k + 1, c, p =>
      particleLoop decay drive rng (i + 1) k (c + 3)
        (Function.update p i
          (decay * (p i).1 + drive * rng c,
           decay * (p i).2.1 + drive * rng (c + 1),
           decay * (p i).2.2 + drive * rng (c + 2)))

/-- `langevin_pipeline` (lines 16-82).  `decay` and `drive` abstract the
precomputed `exp`/`sqrt` coefficients of lines 66-69 (their values do
not matter to the properties proved here); `rng` is this rank's
`mt_frandn` stream; `p` maps particle index to momentum `(ux, uy, uz)`.
Line 75: the host straggler rank (`pipeline_rank == n_pipeline`) returns
without touching any particle. -/
def langevin_pipeline (decay drive : ℚ) (rng : ℕ → ℚ) (np : ℕ)
    (pipeline_rank n_pipeline : ℕ) (p : ℕ → ℚ × ℚ × ℚ) : ℕ → ℚ × ℚ × ℚ :=
  let i := langevin_bounds np n_pipeline pipeline_rank
  let i1 := langevin_bounds np n_pipeline (pipeline_rank + 1)
  if pipeline_rank = n_pipeline then p
  else particleLoop decay drive rng i (i1 - i) 0 p

/-- `EXEC_PIPELINES( langevin, l, 0 ); WAIT_PIPELINES();` (lines 87-88):
run `langevin_pipeline` for ranks `0..n_pipeline-1` on the pipeline
processors and for the host rank `n_pipeline`.  The ranks' index ranges
are disjoint, so the parallel execution equals this sequential fold. -/
def exec_langevin_pipelines (decay drive : ℚ) (rng : ℕ → ℕ → ℚ) (np n_pipeline : ℕ)
    (p : ℕ → ℚ × ℚ × ℚ) : ℕ → ℚ × ℚ × ℚ :=
  List.foldl (fun q r => langevin_pipeline decay drive (rng r) np r n_pipeline q) p
    (List.range (n_pipeline + 1))

/-- `apply_langevin` (lines 84-89): line 86 returns unless the operator's
interval is at least 1 and the current step is a multiple of it. -/
def apply_langevin (decay drive : ℚ) (rng : ℕ → ℕ → ℚ) (np : ℕ)
    (interval step : ℤ) (n_pipeline : ℕ) (p : ℕ → ℚ × ℚ × ℚ) : ℕ → ℚ × ℚ × ℚ :=
  if interval < 1 ∨ step % interval ≠ 0 then p
  else exec_langevin_pipelines decay drive rng np n_pipeline p

def rng0 : ℕ → ℚ := fun _ => 0

def rngs0 : ℕ → ℕ → ℚ := fun _ _ => 0

def p0 : ℕ → ℚ × ℚ × ℚ := fun _ => (0, 0, 0)

/-! ### Partition helper lemmas -/

/-- A monotone chain of bounds from `0` to `n` covers every `x < n` by
exactly the interval of the last bound not exceeding `x`. -/
lemma exists_interval (f : ℕ → ℕ) :
    ∀ P x, f 0 = 0 → x < f P → ∃ r, r < P ∧ f r ≤ x ∧ x < f (r + 1) := by
  intro P
  induction P with
  | zero => intro x h0 hx; omega
  | succ P ih =>
      intro x h0 hx
      by_cases hfP : f P ≤ x
      · exact ⟨P, Nat.lt_succ_self P, hfP, hx⟩
      · obtain ⟨r, hr, h1, h2⟩ := ih x h0 (by omega)
        exact ⟨r, by omega, h1, h2⟩

lemma nBlocks_mul_ge (n B : ℕ) (hB : 0 < B) : n ≤ B * nBlocks n B := by
  have h1 := Nat.div_add_mod (n + (B - 1)) B
  have h2 : (n + (B - 1)) % B < B := Nat.mod_lt _ hB
  unfold nBlocks
  omega

lemma nBlocks_pos (n B : ℕ) (hB : 0 < B) (hn : 0 < n) : 0 < nBlocks n B := by
  unfold nBlocks
  have : 1 * B ≤ n + (B - 1) := by omega
  have := (Nat.le_div_iff_mul_le hB).mpr this
  omega

/-- For a rank strictly below the rank count, the uncapped start stays
within `[0, n]`, so `dStart` is exactly `B * ⌊nBlocks·p/P⌋`. -/
lemma dStart_eq (n B p P : ℕ) (hB : 0 < B) (hP : 0 < P) (hp : p < P) :
    dStart n B p P = B * (nBlocks n B * p / P) := by
  rcases Nat.eq_zero_or_pos n with hn | hn
  · subst hn
    have h0 : nBlocks 0 B = 0 := by
      unfold nBlocks
      exact Nat.div_eq_of_lt (by omega)
    simp [dStart, h0]
  · apply min_eq_left
    have hnb1 : 0 < nBlocks n B := nBlocks_pos n B hB hn
    have hdivlt : nBlocks n B * p / P < nBlocks n B := by
      rw [Nat.div_lt_iff_lt_mul hP]
      exact mul_lt_mul_of_pos_left hp hnb1
    have h1 : B * (nBlocks n B * p / P) + B ≤ B * nBlocks n B := by
      calc B * (nBlocks n B * p / P) + B = B * (nBlocks n B * p / P + 1) := by ring
        _ ≤ B * nBlocks n B := Nat.mul_le_mul_left _ (by omega)
    have hbnb : B * nBlocks n B ≤ n + (B - 1) := by
      unfold nBlocks
      rw [Nat.mul_comm]
      exact Nat.div_mul_le_self _ _
    omega

lemma dStart_mono (n B P : ℕ) : ∀ p q, p ≤ q → dStart n B p P ≤ dStart n B q P := by
  intro p q hpq
  unfold dStart
  have : nBlocks n B * p / P ≤ nBlocks n B * q / P :=
    Nat.div_le_div_right (Nat.mul_le_mul_left _ hpq)
  exact min_le_min (Nat.mul_le_mul_left _ this) le_rfl

lemma dStart_zero (n B P : ℕ) : dStart n B 0 P = 0 := by
  simp [dStart]

lemma dStart_top (n B P : ℕ) (hB : 0 < B) (hP : 0 < P) : dStart n B P P = n := by
  unfold dStart
  rw [Nat.mul_div_cancel _ hP]
  exact min_eq_right (nBlocks_mul_ge n B hB)

lemma langevin_bounds_zero (np P : ℕ) (hP : 0 < P) : langevin_bounds np P 0 = 0 := by
  unfold langevin_bounds
  rw [Nat.mul_zero, Nat.zero_add]
  exact Nat.div_eq_of_lt (by omega)

lemma langevin_bounds_top (np P : ℕ) (hP : 0 < P) : langevin_bounds np P P = np := by
  unfold langevin_bounds
  have h1 : 2 * np * P + P = P * (2 * np + 1) := by ring
  have h2 : 2 * P = P * 2 := by ring
  rw [h1, h2, Nat.mul_div_mul_left _ _ hP]
  omega

lemma langevin_bounds_mono (np P : ℕ) :
    ∀ r s, r ≤ s → langevin_bounds np P r ≤ langevin_bounds np P s := by
  intro r s hrs
  unfold langevin_bounds
  exact Nat.div_le_div_right (by nlinarith)

/-! ### Local buffer loop lemmas -/

lemma forWrite_apply {α : Type} (body : ℕ → α → α) :
    ∀ k m0 buf x,
      forWrite body m0 k buf x = if m0 ≤ x ∧ x < m0 + k then body x (buf x) else buf x := by
  intro k
  induction k with
  | zero =>
      intro m0 buf x
      rw [forWrite, if_neg (by omega)]
  | succ k ih =>
      intro m0 buf x
      rw [forWrite, ih]
      by_cases h1 : m0 + 1 ≤ x ∧ x < m0 + 1 + k
      · rw [if_pos h1, if_pos (by omega), Function.update_noteq (by omega)]
      · rw [if_neg h1]
        by_cases h2 : x = m0
        · subst h2
          rw [Function.update_same, if_pos (by omega)]
        · rw [Function.update_noteq h2, if_neg (by omega)]

lemma primeGets_snd (NB s_array : ℕ) (mem : AMem F) (i : ℕ) :
    ∀ k r fbuf,
      (primeGets NB s_array mem i r k fbuf).2
        = (List.range' r k).map (fun rr => Ev.get rr i) := by
  intro k
  induction k with
  | zero => intro r fbuf; rfl
  | succ k ih =>
      intro r fbuf
      rw [primeGets]
      dsimp only
      rw [ih, List.range'_succ]
      rfl

lemma primeGets_fst_lt (NB s_array : ℕ) (mem : AMem F) (i : ℕ) :
    ∀ k r fbuf s, s < NB * r → (primeGets NB s_array mem i r k fbuf).1 s = fbuf s := by
  intro k
  induction k with
  | zero => intro r fbuf s hs; rfl
  | succ k ih =>
      intro r fbuf s hs
      rw [primeGets]
      dsimp only
      rw [ih _ _ _ (by nlinarith)]
      rw [dmaGet, if_neg (by omega)]

lemma primeGets_fst_get (NB s_array : ℕ) (mem : AMem F) (i : ℕ) :
    ∀ k r fbuf rr m, r ≤ rr → rr < r + k → m < NB →
      (primeGets NB s_array mem i r k fbuf).1 (NB * rr + m)
        = mem (i + rr * s_array + m) := by
  intro k
  induction k with
  | zero => intro r fbuf rr m h1 h2; omega
  | succ k ih =>
      intro r fbuf rr m h1 h2 hm
      rw [primeGets]
      dsimp only
      by_cases hrr : rr = r
      · subst hrr
        rw [primeGets_fst_lt _ _ _ _ _ _ _ _ (by nlinarith)]
        rw [dmaGet, if_pos (by omega)]
        have harg : NB * rr + m - NB * rr = m := by omega
        rw [harg]
      · exact ih _ _ _ _ (by omega) (by omega) hm

/-! ### Trace lemmas -/

lemma rLoop_trace (O : SpuOps F D) (NB s_array i i1 : ℕ) (mem : AMem F) :
    ∀ k r fbuf dbuf tr,
      (rLoop O NB s_array i i1 mem r k fbuf dbuf tr).2.2
        = tr ++ if i + NB < i1 then (List.range' r k).map (fun rr => Ev.get rr (i + NB))
                else [] := by
  intro k
  induction k with
  | zero => intro r fbuf dbuf tr; simp [rLoop]
  | succ k ih =>
      intro r fbuf dbuf tr
      rw [rLoop]
      by_cases hc : i + NB < i1
      · rw [if_pos hc, ih, if_pos hc, if_pos hc, List.range'_succ]
        simp
      · rw [if_neg hc, ih, if_neg hc, if_neg hc]

lemma range_map_get_split (na b : ℕ) (hna : 1 ≤ na) :
    (List.range na).map (fun r => Ev.get r b)
      = Ev.get 0 b :: (List.range' 1 (na - 1)).map (fun r => Ev.get r b) := by
  obtain ⟨m, rfl⟩ : ∃ m, na = m + 1 := ⟨na - 1, by omega⟩
  rw [List.range_eq_range', List.range'_succ]
  simp

lemma blockLoop_trace (O : SpuOps F D) (NB na s_array i1 : ℕ) (hna : 1 ≤ na) :
    ∀ k i mem fbuf dbuf g tr,
      (blockLoop O NB na s_array i1 k i mem fbuf dbuf g tr).2
        = tr ++ blockTrace NB na i1 i k := by
  intro k
  induction k with
  | zero => intro i mem fbuf dbuf g tr; simp [blockLoop, blockTrace]
  | succ k ih =>
      intro i mem fbuf dbuf g tr
      rw [blockLoop]
      by_cases hc : i + NB < i1
      · rw [if_pos hc, ih, rLoop_trace, if_pos hc, blockTrace, if_pos hc,
          range_map_get_split na (i + NB) hna]
        simp
      · rw [if_neg hc, ih, rLoop_trace, if_neg hc, blockTrace, if_neg hc]
        simp

lemma blockTrace_get (NB na i1 : ℕ) :
    ∀ k i r b, Ev.get r b ∈ blockTrace NB na i1 i k → i ≤ b ∧ b < i1 := by
  intro k
  induction k with
  | zero => intro i r b hb; simp [blockTrace] at hb
  | succ k ih =>
      intro i r b hb
      rw [blockTrace] at hb
      rcases List.mem_append.mp hb with h | h
      · by_cases hc : i + NB < i1
        · rw [if_pos hc] at h
          obtain ⟨rr, hrr, heq⟩ := List.mem_map.mp h
          rcases heq
          omega
        · rw [if_neg hc] at h
          simp at h
      · rcases List.mem_cons.mp h with h2 | h2
        · exact absurd h2 (by simp)
        · have := ih _ _ _ h2
          omega

/-! ### Per-lane reduction lemmas -/

lemma dInit_apply (O : SpuOps F D) (rec : ARec F) (j : Fin 6) (h : Fin 2) :
    dInit O rec j h = O.ext (rec (qIdx j) (lIdx j h)) := by
  fin_cases j <;> fin_cases h <;> rfl

lemma dStep_apply (O : SpuOps F D) (d : DRec D) (rec : ARec F) (j : Fin 6) (h : Fin 2) :
    dStep O d rec j h = O.dadd (d j h) (O.ext (rec (qIdx j) (lIdx j h))) := by
  fin_cases j <;> fin_cases h <;> rfl

lemma gRec_apply (O : SpuOps F D) (d : DRec D) (q : Fin 3) (l : Fin 4) :
    gRec O d q l = O.rnd (d (dIdx q l) (hIdx q l)) := by
  fin_cases q <;> fin_cases l <;>
    simp [gRec, spu_or, spu_roundtf, spu_shuffle_perm, dIdx, hIdx,
      O.orf_zero_left, O.orf_zero_right]

lemma dfold_apply (O : SpuOps F D) :
    ∀ (recs : List (ARec F)) (dd : DRec D) (j : Fin 6) (h : Fin 2),
      List.foldl (fun d rec => dStep O d rec) dd recs j h
        = List.foldl (fun acc rec => O.dadd acc (O.ext (rec (qIdx j) (lIdx j h))))
            (dd j h) recs := by
  intro recs
  induction recs with
  | nil => intro dd j h; rfl
  | cons rec rest ih =>
      intro dd j h
      rw [List.foldl_cons, List.foldl_cons, ih, dStep_apply]

lemma idx_inverse : ∀ (q : Fin 3) (l : Fin 4),
    qIdx (dIdx q l) = q ∧ lIdx (dIdx q l) (hIdx q l) = l := by
  decide

/-- The output record written for a block record whose double-precision
sums were initialised from `r0` and folded over `recs` holds, in every
field lane, the rounded ordered sum of that lane. -/
lemma gRec_fold (O : SpuOps F D) (r0 : ARec F) (recs : List (ARec F))
    (q : Fin 3) (l : Fin 4) :
    gRec O (List.foldl (fun d rec => dStep O d rec) (dInit O r0) recs) q l
      = O.rnd (List.foldl (fun acc rec => O.dadd acc (O.ext (rec q l)))
          (O.ext (r0 q l)) recs) := by
  rw [gRec_apply, dfold_apply, dInit_apply, (idx_inverse q l).1, (idx_inverse q l).2]

/-! ### Memory characterisation of the kernel -/

lemma ceil_succ_facts (NB x k : ℕ) (hNB : 0 < NB) (hk : (x + (NB - 1)) / NB = k + 1) :
    0 < x ∧ (0 < k ↔ NB < x) ∧ (x - NB + (NB - 1)) / NB = k := by
  have h1 : 1 ≤ (x + (NB - 1)) / NB := by omega
  have h2 : 1 * NB ≤ x + (NB - 1) := (Nat.le_div_iff_mul_le hNB).mp h1
  have hx : 0 < x := by omega
  refine ⟨hx, ⟨?_, ?_⟩, ?_⟩
  · intro hkpos
    have h3 : 2 ≤ (x + (NB - 1)) / NB := by omega
    have := (Nat.le_div_iff_mul_le hNB).mp h3
    omega
  · intro hNBx
    have h3 : 2 * NB ≤ x + (NB - 1) := by omega
    have := (Nat.le_div_iff_mul_le hNB).mpr h3
    omega
  · by_cases hxNB : x ≤ NB
    · have hx0 : x - NB = 0 := by omega
      have hlt : (x + (NB - 1)) / NB < 2 := by
        rw [Nat.div_lt_iff_lt_mul hNB]
        omega
      have hk0 : k = 0 := by omega
      rw [hx0, hk0]
      exact Nat.div_eq_of_lt (by omega)
    · have heq2 : x + (NB - 1) = (x - NB + (NB - 1)) + NB := by omega
      rw [heq2, Nat.add_div_right _ hNB] at hk
      omega

/-- Behaviour of the inner array loop (lines 79-98) on a block starting
at `i` whose data was staged from `mem0`: low local-store slots are
untouched, the processed arrays' slots end up holding the next block
(when one is in range), and the double-precision sums fold the staged
records in increasing array order. -/
lemma rLoop_spec (O : SpuOps F D) (NB s_array i i1 : ℕ) (mem mem0 : AMem F)
    (hNB : 0 < NB)
    (hmem : ∀ a, i ≤ a → mem a = mem0 a) :
    ∀ k r fbuf dbuf tr,
      (∀ rr m, r ≤ rr → rr < r + k → m < NB →
        fbuf (NB * rr + m) = mem0 (i + rr * s_array + m)) →
      (∀ s, s < NB * r → (rLoop O NB s_array i i1 mem r k fbuf dbuf tr).1 s = fbuf s) ∧
      (∀ rr m, r ≤ rr → rr < r + k → m < NB →
        (rLoop O NB s_array i i1 mem r k fbuf dbuf tr).1 (NB * rr + m)
          = if i + NB < i1 then mem0 (i + NB + rr * s_array + m)
            else mem0 (i + rr * s_array + m)) ∧
      (∀ m, m < NB →
        (rLoop O NB s_array i i1 mem r k fbuf dbuf tr).2.1 m
          = List.foldl (fun dd rr => dStep O dd (mem0 (i + rr * s_array + m)))
              (dbuf m) (List.range' r k)) := by
  intro k
  induction k with
  | zero =>
      intro r fbuf dbuf tr hfb
      refine ⟨fun s hs => rfl, fun rr m h1 h2 => by omega, fun m hm => rfl⟩
  | succ k ih =>
      intro r fbuf dbuf tr hfb
      have hdist : NB * (r + 1) = NB * r + NB := by ring
      by_cases hc : i + NB < i1
      · have hfbN : ∀ rr m, r + 1 ≤ rr → rr < (r + 1) + k → m < NB →
            (dmaGet NB fbuf mem (NB * r) (i + NB + r * s_array)) (NB * rr + m)
              = mem0 (i + rr * s_array + m) := by
          intro rr m h1 h2 hm
          have hge : NB * (r + 1) ≤ NB * rr := Nat.mul_le_mul_left _ h1
          rw [dmaGet, if_neg (by omega)]
          exact hfb rr m (by omega) (by omega) hm
        obtain ⟨IH1, IH2, IH3⟩ := ih (r + 1)
          (dmaGet NB fbuf mem (NB * r) (i + NB + r * s_array))
          (forWrite (fun m dd => dStep O dd (fbuf (NB * r + m))) 0 NB dbuf)
          (tr ++ [Ev.get r (i + NB)]) hfbN
        rw [rLoop, if_pos hc]
        dsimp only
        refine ⟨?_, ?_, ?_⟩
        · intro s hs
          rw [IH1 s (by omega)]
          rw [dmaGet, if_neg (by omega)]
        · intro rr m h1 h2 hm
          rw [if_pos hc]
          by_cases hrr : rr = r
          · subst hrr
            rw [IH1 (NB * rr + m) (by omega)]
            rw [dmaGet, if_pos (by omega)]
            have harg : i + NB + rr * s_array + (NB * rr + m - NB * rr)
                = i + NB + rr * s_array + m := by omega
            rw [harg]
            exact hmem _ (by omega)
          · have := IH2 rr m (by omega) (by omega) hm
            rw [if_pos hc] at this
            exact this
        · intro m hm
          rw [IH3 m hm, forWrite_apply, if_pos (by omega), hfb r m (by omega) (by omega) hm,
            List.range'_succ, List.foldl_cons]
      · have hfbN : ∀ rr m, r + 1 ≤ rr → rr < (r + 1) + k → m < NB →
            fbuf (NB * rr + m) = mem0 (i + rr * s_array + m) := by
          intro rr m h1 h2 hm
          exact hfb rr m (by omega) (by omega) hm
        obtain ⟨IH1, IH2, IH3⟩ := ih (r + 1) fbuf
          (forWrite (fun m dd => dStep O dd (fbuf (NB * r + m))) 0 NB dbuf) tr hfbN
        rw [rLoop, if_neg hc]
        dsimp only
        refine ⟨?_, ?_, ?_⟩
        · intro s hs
          exact IH1 s (by omega)
        · intro rr m h1 h2 hm
          rw [if_neg hc]
          by_cases hrr : rr = r
          · subst hrr
            rw [IH1 (NB * rr + m) (by omega)]
            exact hfb rr m (by omega) (by omega) hm
          · have := IH2 rr m (by omega) (by omega) hm
            rw [if_neg hc] at this
            exact this
        · intro m hm
          rw [IH3 m hm, forWrite_apply, if_pos (by omega), hfb r m (by omega) (by omega) hm,
            List.range'_succ, List.foldl_cons]

/-- The double-precision sums a block iteration computes for record
`a = i + m` reduce, lane by lane, to the ordered reduction `outVal`. -/
lemma fold_outVal (O : SpuOps F D) (mem0 : AMem F) (s_array na i a : ℕ) (hia : i ≤ a) :
    gRec O (List.foldl (fun dd rr => dStep O dd (mem0 (i + rr * s_array + (a - i))))
        (dInit O (mem0 a)) (List.range' 1 (na - 1)))
      = outVal O mem0 s_array na a := by
  have hfun : (fun dd rr => dStep O dd (mem0 (i + rr * s_array + (a - i))))
      = fun dd rr => dStep O dd (mem0 (a + rr * s_array)) := by
    funext dd rr
    have harg : i + rr * s_array + (a - i) = a + rr * s_array := by omega
    rw [harg]
  rw [hfun]
  rw [show List.foldl (fun dd rr => dStep O dd (mem0 (a + rr * s_array)))
        (dInit O (mem0 a)) (List.range' 1 (na - 1))
      = List.foldl (fun d rec => dStep O d rec) (dInit O (mem0 a))
          ((List.range' 1 (na - 1)).map (fun rr => mem0 (a + rr * s_array))) from
    (List.foldl_map _ _ _ _).symm]
  funext q l
  rw [gRec_fold, List.foldl_map]
  rfl

/-- Memory after the per-block loop: records of the processed whole
blocks `[i, i + k·NB)` hold the ordered reduction of the `na` staged
arrays; everything else is whatever `mem` held. -/
lemma blockLoop_mem (O : SpuOps F D) (NB na s_array i1 : ℕ) (mem0 : AMem F)
    (hNB : 0 < NB) (hna : 2 ≤ na) :
    ∀ k i mem fbuf dbuf g tr,
      k = (i1 - i + (NB - 1)) / NB →
      (0 < k → ∀ r m, r < na → m < NB → fbuf (NB * r + m) = mem0 (i + r * s_array + m)) →
      (∀ a, i ≤ a → mem a = mem0 a) →
      (blockLoop O NB na s_array i1 k i mem fbuf dbuf g tr).1
        = fun a => if i ≤ a ∧ a < i + k * NB then outVal O mem0 s_array na a
                   else mem a := by
  intro k
  induction k with
  | zero =>
      intro i mem fbuf dbuf g tr hk hfb hmem
      funext a
      rw [blockLoop]
      rw [if_neg (by omega)]
  | succ k ih =>
      intro i mem fbuf dbuf g tr hk hfb hmem
      obtain ⟨hx, hiff, hk2⟩ := ceil_succ_facts NB (i1 - i) k hNB hk.symm
      have hi : i < i1 := by omega
      specialize hfb (by omega)
      have hdistk : i + (k + 1) * NB = i + NB + k * NB := by ring
      have hk2x : k = (i1 - (i + NB) + (NB - 1)) / NB := by
        have harg : i1 - (i + NB) + (NB - 1) = i1 - i - NB + (NB - 1) := by omega
        rw [harg, hk2]
      by_cases hc : i + NB < i1
      · -- next block exists: array 0 is prefetched at line 72 before the inner loop
        have hfbR : ∀ rr m, 1 ≤ rr → rr < 1 + (na - 1) → m < NB →
            (dmaGet NB fbuf mem 0 (i + NB)) (NB * rr + m)
              = mem0 (i + rr * s_array + m) := by
          intro rr m h1 h2 hm
          have hge : NB * 1 ≤ NB * rr := Nat.mul_le_mul_left _ h1
          rw [dmaGet, if_neg (by omega)]
          exact hfb rr m (by omega) hm
        obtain ⟨HR1, HR2, HR3⟩ := rLoop_spec O NB s_array i i1 mem mem0 hNB hmem
          (na - 1) 1 (dmaGet NB fbuf mem 0 (i + NB))
          (forWrite (fun m _ => dInit O (fbuf m)) 0 NB dbuf)
          (tr ++ [Ev.get 0 (i + NB)]) hfbR
        rw [blockLoop, if_pos hc]
        dsimp only
        rw [ih (i + NB) _ _ _ _ _ hk2x ?hfbN ?hmemN]
        case hfbN =>
          intro hkpos r m hr hm
          rcases Nat.eq_zero_or_pos r with hr0 | hrpos
          · subst hr0
            have hs : NB * 0 + m < NB * 1 := by omega
            rw [HR1 _ hs, dmaGet]
            have hm0 : NB * 0 + m = m := by omega
            rw [hm0, if_pos (by omega)]
            have harg : i + NB + (m - 0) = i + NB + 0 * s_array + m := by omega
            rw [show i + NB + (m - 0) = i + NB + m from by omega]
            rw [show i + NB + 0 * s_array + m = i + NB + m from by omega]
            exact hmem _ (by omega)
          · have := HR2 r m hrpos (by omega) hm
            rw [if_pos hc] at this
            exact this
        case hmemN =>
          intro a ha
          rw [dmaPut, if_neg (by omega)]
          exact hmem a (by omega)
        · funext a
          dsimp only
          by_cases h1 : i + NB ≤ a ∧ a < i + NB + k * NB
          · rw [if_pos h1, if_pos (by omega)]
          · rw [if_neg h1]
            by_cases h2 : i ≤ a ∧ a < i + NB
            · rw [dmaPut, if_pos h2, if_pos (by omega)]
              rw [forWrite_apply, if_pos (by omega)]
              rw [HR3 (a - i) (by omega)]
              rw [forWrite_apply, if_pos (by omega)]
              have hfb0 : fbuf (a - i) = mem0 a := by
                have hv := hfb 0 (a - i) (by omega) (by omega)
                rw [show NB * 0 + (a - i) = a - i from by omega] at hv
                rw [show i + 0 * s_array + (a - i) = a from by omega] at hv
                exact hv
              rw [hfb0]
              exact fold_outVal O mem0 s_array na i a (by omega)
            · rw [dmaPut, if_neg h2, if_neg (by omega)]
      · -- no next block: this was the last iteration
        have hk0 : k = 0 := by
          by_contra hne
          have := hiff.mp (by omega)
          omega
        subst hk0
        have hfbR : ∀ rr m, 1 ≤ rr → rr < 1 + (na - 1) → m < NB →
            fbuf (NB * rr + m) = mem0 (i + rr * s_array + m) := by
          intro rr m h1 h2 hm
          exact hfb rr m (by omega) hm
        obtain ⟨HR1, HR2, HR3⟩ := rLoop_spec O NB s_array i i1 mem mem0 hNB hmem
          (na - 1) 1 fbuf
          (forWrite (fun m _ => dInit O (fbuf m)) 0 NB dbuf)
          tr hfbR
        rw [blockLoop, if_neg hc]
        dsimp only
        rw [blockLoop]
        funext a
        dsimp only
        by_cases h2 : i ≤ a ∧ a < i + NB
        · rw [dmaPut, if_pos h2, if_pos (by omega)]
          rw [forWrite_apply, if_pos (by omega)]
          rw [HR3 (a - i) (by omega)]
          rw [forWrite_apply, if_pos (by omega)]
          have hfb0 : fbuf (a - i) = mem0 a := by
            have hv := hfb 0 (a - i) (by omega) (by omega)
            rw [show NB * 0 + (a - i) = a - i from by omega] at hv
            rw [show i + 0 * s_array + (a - i) = a from by omega] at hv
            exact hv
          rw [hfb0]
          exact fold_outVal O mem0 s_array na i a (by omega)
        · rw [dmaPut, if_neg h2, if_neg (by omega)]

lemma le_blockSpan (NB len : ℕ) (hNB : 0 < NB) : len ≤ blockSpan NB len := by
  unfold blockSpan
  have h1 := Nat.div_add_mod (len + (NB - 1)) NB
  have h2 : (len + (NB - 1)) % NB < NB := Nat.mod_lt _ hNB
  have h3 : (len + (NB - 1)) / NB * NB = NB * ((len + (NB - 1)) / NB) := Nat.mul_comm _ _
  omega

lemma blockSpan_zero (NB : ℕ) (hNB : 0 < NB) : blockSpan NB 0 = 0 := by
  unfold blockSpan
  rw [Nat.zero_add, Nat.div_eq_of_lt (by omega)]
  ring

lemma blockSpan_dvd (NB len : ℕ) (hNB : 0 < NB) (hdvd : NB ∣ len) :
    blockSpan NB len = len := by
  obtain ⟨c, rfl⟩ := hdvd
  unfold blockSpan
  rw [Nat.add_comm, Nat.add_mul_div_left _ _ hNB, Nat.div_eq_of_lt (by omega)]
  ring

/-- Closed form of the storage the kernel leaves behind, for a valid
array count: the whole blocks covering this rank's range hold the
ordered reduction, everything else is untouched. -/
lemma reduce_mem_spec (O : SpuOps F D) (NB n na s_array rank P : ℕ) (mem : AMem F)
    (fb : ℕ → ARec F) (db : ℕ → DRec D) (g : ℕ → ARec F)
    (hNB : 0 < NB) (hna2 : 2 ≤ na) (hna : na ≤ MAX_ARRAY) :
    (reduce_accumulators_pipeline O NB n na s_array rank P mem fb db g).1
      = fun a => if (DISTRIBUTE n NB rank P).1 ≤ a ∧
            a < (DISTRIBUTE n NB rank P).1 + blockSpan NB (DISTRIBUTE n NB rank P).2
          then outVal O mem s_array na a else mem a := by
  simp only [reduce_accumulators_pipeline]
  rw [if_neg (not_lt.mpr hna), if_neg (not_lt.mpr hna2)]
  rw [show (DISTRIBUTE n NB rank P).1 + (DISTRIBUTE n NB rank P).2
        - (DISTRIBUTE n NB rank P).1 = (DISTRIBUTE n NB rank P).2 from by omega]
  by_cases hlen : 0 < (DISTRIBUTE n NB rank P).2
  · rw [primePhase, if_pos (by omega)]
    have hk : ((DISTRIBUTE n NB rank P).2 + (NB - 1)) / NB
        = ((DISTRIBUTE n NB rank P).1 + (DISTRIBUTE n NB rank P).2
            - (DISTRIBUTE n NB rank P).1 + (NB - 1)) / NB := by
      rw [show (DISTRIBUTE n NB rank P).1 + (DISTRIBUTE n NB rank P).2
            - (DISTRIBUTE n NB rank P).1 = (DISTRIBUTE n NB rank P).2 from by omega]
    rw [blockLoop_mem O NB na s_array _ mem hNB hna2 _ _ mem _ db g _ hk
      ?hfb (fun a ha => rfl)]
    case hfb =>
      intro hkpos r m hr hm
      exact primeGets_fst_get NB s_array mem _ na 0 fb r m (by omega) (by omega) hm
    rfl
  · rw [primePhase, if_neg (by omega)]
    have hk0 : ((DISTRIBUTE n NB rank P).2 + (NB - 1)) / NB = 0 := by
      rw [show (DISTRIBUTE n NB rank P).2 = 0 from by omega]
      rw [Nat.zero_add]
      exact Nat.div_eq_of_lt (by omega)
    rw [hk0, blockLoop]
    funext a
    rw [if_neg ?hne]
    case hne =>
      rw [show (DISTRIBUTE n NB rank P).2 = 0 from by omega, blockSpan_zero NB hNB]
      omega

/-- Closed form of the kernel's DMA trace, for a valid array count. -/
lemma reduce_trace_spec (O : SpuOps F D) (NB n na s_array rank P : ℕ) (mem : AMem F)
    (fb : ℕ → ARec F) (db : ℕ → DRec D) (g : ℕ → ARec F)
    (hna2 : 2 ≤ na) (hna : na ≤ MAX_ARRAY) :
    (reduce_accumulators_pipeline O NB n na s_array rank P mem fb db g).2
      = (if 0 < (DISTRIBUTE n NB rank P).2 then
           (List.range na).map (fun r => Ev.get r (DISTRIBUTE n NB rank P).1) else [])
        ++ blockTrace NB na
            ((DISTRIBUTE n NB rank P).1 + (DISTRIBUTE n NB rank P).2)
            (DISTRIBUTE n NB rank P).1
            (((DISTRIBUTE n NB rank P).2 + (NB - 1)) / NB) := by
  simp only [reduce_accumulators_pipeline]
  rw [if_neg (not_lt.mpr hna), if_neg (not_lt.mpr hna2)]
  rw [blockLoop_trace O NB na s_array _ (by omega)]
  rw [show (DISTRIBUTE n NB rank P).1 + (DISTRIBUTE n NB rank P).2
        - (DISTRIBUTE n NB rank P).1 = (DISTRIBUTE n NB rank P).2 from by omega]
  by_cases hlen : 0 < (DISTRIBUTE n NB rank P).2
  · rw [primePhase, if_pos (by omega), if_pos hlen]
    rw [primeGets_snd, ← List.range_eq_range']
  · rw [primePhase, if_neg (by omega), if_neg hlen]

/-- Lines 34-35: an array count outside `[2, MAX_ARRAY]` returns before
any transfer or store. -/
lemma reduce_eq_of_bad_na (O : SpuOps F D) (NB n na s_array rank P : ℕ)
    (mem : AMem F) (fb : ℕ → ARec F) (db : ℕ → DRec D) (g : ℕ → ARec F)
    (h : na < 2 ∨ MAX_ARRAY < na) :
    reduce_accumulators_pipeline O NB n na s_array rank P mem fb db g = (mem, []) := by
  simp only [reduce_accumulators_pipeline]
  rcases h with h | h
  · rw [if_neg (by unfold MAX_ARRAY at *; omega), if_pos h]
  · rw [if_pos h]

lemma foldl_dadd_congr (O : SpuOps F D) (f1 f2 : ℕ → F) :
    ∀ k s acc1 acc2, acc1 = acc2 → (∀ r, s ≤ r → r < s + k → f1 r = f2 r) →
      List.foldl (fun acc r => O.dadd acc (O.ext (f1 r))) acc1 (List.range' s k)
        = List.foldl (fun acc r => O.dadd acc (O.ext (f2 r))) acc2 (List.range' s k) := by
  intro k
  induction k with
  | zero => intro s acc1 acc2 ha h; exact ha
  | succ k ih =>
      intro s acc1 acc2 ha h
      rw [List.range'_succ, List.foldl_cons, List.foldl_cons]
      refine ih (s + 1) _ _ ?_ ?_
      · rw [ha, h s (le_refl s) (by omega)]
      · intro r h1 h2
        exact h r (by omega) (by omega)

/-- `outVal` depends only on the `na` declared arrays' record-`a`
fields. -/
lemma outVal_congr (O : SpuOps F D) (mem1 mem2 : AMem F) (s_array na a : ℕ)
    (hna : 0 < na)
    (h : ∀ r, r < na → mem1 (a + r * s_array) = mem2 (a + r * s_array)) :
    outVal O mem1 s_array na a = outVal O mem2 s_array na a := by
  funext q l
  unfold outVal
  have h0 : mem1 a q l = mem2 a q l := by
    have hv := h 0 hna
    rw [show a + 0 * s_array = a from by omega] at hv
    rw [hv]
  apply congrArg O.rnd
  exact foldl_dadd_congr O (fun r => mem1 (a + r * s_array) q l)
    (fun r => mem2 (a + r * s_array) q l) (na - 1) 1 _ _ (by rw [h0])
    (fun r h1 h2 => by dsimp only; rw [h r (by omega)])

lemma particleLoop_frame (decay drive : ℚ) (rng : ℕ → ℚ) :
    ∀ k i c p j, j < i ∨ i + k ≤ j →
      particleLoop decay drive rng i k c p j = p j := by
  intro k
  induction k with
  | zero => intro i c p j hj; rfl
  | succ k ih =>
      intro i c p j hj
      rw [particleLoop, ih _ _ _ _ (by omega)]
      exact Function.update_noteq (by omega) _ _

/-! ### Claim theorems -/

/-- C1: for every array count `na` with `2 ≤ na ≤ MAX_ARRAY`, every
record count, and arbitrary field values, the kernel writes, at every
record index owned by the calling rank, the value obtained by converting
each of the `na` arrays' fields at that index to double precision,
summing them in increasing array-index order, and rounding the sum back
to single precision — each of the record's twelve field lanes
independently. -/
theorem reduce_output_is_ordered_sum (O : SpuOps F D) (NB n na s_array rank P : ℕ)
    (mem : AMem F) (fb : ℕ → ARec F) (db : ℕ → DRec D) (g : ℕ → ARec F)
    (hNB : 0 < NB) (hna2 : 2 ≤ na) (hna : na ≤ MAX_ARRAY)
    (idx : ℕ)
    (hlo : (DISTRIBUTE n NB rank P).1 ≤ idx)
    (hhi : idx < (DISTRIBUTE n NB rank P).1 + (DISTRIBUTE n NB rank P).2) :
    ∀ (q : Fin 3) (l : Fin 4),
      (reduce_accumulators_pipeline O NB n na s_array rank P mem fb db g).1 idx q l
        = orderedReduce O (mem idx q l)
            ((List.range' 1 (na - 1)).map (fun r => mem (idx + r * s_array) q l)) := by
  intro q l
  rw [reduce_mem_spec O NB n na s_array rank P mem fb db g hNB hna2 hna]
  dsimp only
  rw [if_pos ⟨hlo, by
    have := le_blockSpan NB (DISTRIBUTE n NB rank P).2 hNB
    omega⟩]
  simp only [outVal, orderedReduce]
  rw [List.foldl_map]

theorem reduce_output_is_ordered_sum_witness :
    ((0:ℕ) < 1 ∧ (2:ℕ) ≤ 2 ∧ (2:ℕ) ≤ MAX_ARRAY ∧
      (DISTRIBUTE 1 1 0 1).1 ≤ 0 ∧ 0 < (DISTRIBUTE 1 1 0 1).1 + (DISTRIBUTE 1 1 0 1).2) ∧
    (reduce_accumulators_pipeline intOps 1 1 2 1 0 1 memLin zBufA zBufD zBufA).1 0 0 0
      = orderedReduce intOps (memLin 0 0 0)
          ((List.range' 1 (2 - 1)).map (fun r => memLin (0 + r * 1) 0 0)) :=
  ⟨⟨by decide, by decide, by decide, by decide, by decide⟩,
    reduce_output_is_ordered_sum intOps 1 1 2 1 0 1 memLin zBufA zBufD zBufA
      (by decide) (by decide) (by decide) 0 (by decide) (by decide) 0 0⟩

/-- C2: the work partitioner assigns each rank `r < P` a contiguous
sub-range `[start, start+len)` such that the ranges are pairwise
disjoint and their union is exactly `[0, n)`; `start` is a multiple of
`B` for every rank and `len` is a multiple of `B` for every rank except
possibly the last (tail-owning) one; the partition is a function of
`(n, B, P)` (hence deterministic); and when `P` exceeds the number of
available blocks some ranks receive an empty range rather than an
error. -/
theorem distribute_partition (n B P : ℕ) (hB : 0 < B) (hP : 0 < P) :
    (∀ x, x < n ↔ ∃ r, r < P ∧ (DISTRIBUTE n B r P).1 ≤ x ∧
        x < (DISTRIBUTE n B r P).1 + (DISTRIBUTE n B r P).2) ∧
    (∀ r s, r < s →
      (DISTRIBUTE n B r P).1 + (DISTRIBUTE n B r P).2 ≤ (DISTRIBUTE n B s P).1) ∧
    (∀ r, r < P → B ∣ (DISTRIBUTE n B r P).1) ∧
    (∀ r, r + 1 < P → B ∣ (DISTRIBUTE n B r P).2) ∧
    (nBlocks n B < P → (DISTRIBUTE n B 0 P).2 = 0) := by
  have hsum : ∀ r, (DISTRIBUTE n B r P).1 + (DISTRIBUTE n B r P).2
      = dStart n B (r + 1) P := by
    intro r
    have := dStart_mono n B P r (r + 1) (by omega)
    simp only [DISTRIBUTE]
    omega
  refine ⟨?_, ?_, ?_, ?_, ?_⟩
  · intro x
    constructor
    · intro hx
      obtain ⟨r, hr, h1, h2⟩ := exists_interval (fun r => dStart n B r P) P x
        (dStart_zero n B P)
        (by show x < dStart n B P P; rw [dStart_top n B P hB hP]; exact hx)
      exact ⟨r, hr, h1, by rw [hsum]; exact h2⟩
    · rintro ⟨r, hr, h1, h2⟩
      rw [hsum] at h2
      have := dStart_mono n B P (r + 1) P (by omega)
      rw [dStart_top n B P hB hP] at this
      omega
  · intro r s hrs
    rw [hsum]
    exact dStart_mono n B P (r + 1) s (by omega)
  · intro r hr
    rw [show (DISTRIBUTE n B r P).1 = dStart n B r P from rfl, dStart_eq n B r P hB hP hr]
    exact Dvd.intro _ rfl
  · intro r hr
    have h1 := dStart_eq n B r P hB hP (by omega)
    have h2 := dStart_eq n B (r + 1) P hB hP hr
    rw [show (DISTRIBUTE n B r P).2 = dStart n B (r + 1) P - dStart n B r P from rfl,
      h1, h2]
    exact Nat.dvd_sub' (Dvd.intro _ rfl) (Dvd.intro _ rfl)
  · intro hblk
    have h1 : dStart n B 1 P = 0 := by
      unfold dStart
      rw [Nat.mul_one, Nat.div_eq_of_lt hblk, Nat.mul_zero]
      simp
    rw [show (DISTRIBUTE n B 0 P).2 = dStart n B 1 P - dStart n B 0 P from rfl, h1]
    omega

theorem distribute_partition_witness :
    ((0:ℕ) < 2 ∧ (0:ℕ) < 2) ∧ 2 ∣ (DISTRIBUTE 5 2 0 2).1 :=
  ⟨⟨by decide, by decide⟩,
    (distribute_partition 5 2 2 (by decide) (by decide)).2.2.1 0 (by decide)⟩

/-- C3: for every array count outside `[2, MAX_ARRAY]` (with
`MAX_ARRAY = 11`) the kernel returns immediately: storage is unchanged
(including array 0) and no transfer is issued — no error is signalled
(the returned trace is empty and there is no error channel). -/
theorem reduce_rejects_bad_array_count (O : SpuOps F D) (NB n na s_array rank P : ℕ)
    (mem : AMem F) (fb : ℕ → ARec F) (db : ℕ → DRec D) (g : ℕ → ARec F)
    (h : na < 2 ∨ MAX_ARRAY < na) :
    reduce_accumulators_pipeline O NB n na s_array rank P mem fb db g = (mem, []) :=
  reduce_eq_of_bad_na O NB n na s_array rank P mem fb db g h

theorem reduce_rejects_bad_array_count_witness :
    ((1:ℕ) < 2 ∨ MAX_ARRAY < 1) ∧
    reduce_accumulators_pipeline intOps 2 4 1 4 0 1 memLin zBufA zBufD zBufA
      = (memLin, []) :=
  ⟨Or.inl (by decide),
    reduce_rejects_bad_array_count intOps 2 4 1 4 0 1 memLin zBufA zBufD zBufA
      (Or.inl (by decide))⟩

/-- C4 counterexample: with block size `NB = 2`, `n = 3` records,
`na = 2`, `s_array = 3` and a single rank, the DISTRIBUTE range is
`[0, 3)` (the spec's partitioner may hand a rank a tail range that is
not a whole number of blocks), yet the kernel's final `mfc_put` writes
the whole block `[2, 4)`: record address 3 — outside the owned
sub-range, and in fact record 0 of array 1 — is modified, refuting the
claim as stated. -/
theorem reduce_frame_counterexample :
    ((DISTRIBUTE 3 2 0 1).1 + (DISTRIBUTE 3 2 0 1).2 ≤ 3) ∧
    (reduce_accumulators_pipeline intOps 2 3 2 3 0 1 memLin zBufA zBufD zBufA).1 3 0 0
      ≠ memLin 3 0 0 := by
  constructor
  · decide
  · decide

/-- C4 (amended): for every valid invocation (`2 ≤ na ≤ MAX_ARRAY`)
whose owned range length is a whole number of blocks (the kernel
transfers whole `NB`-record blocks, so a non-block-aligned tail range
overruns), the only storage the kernel modifies is array 0's records in
the calling rank's owned sub-range: every record address outside
`[start, start+len)` — in particular all of arrays `1..na-1`'s storage
and array 0's records outside the sub-range — is left bit-for-bit
unmodified. -/
theorem reduce_frame_blockAligned (O : SpuOps F D) (NB n na s_array rank P : ℕ)
    (mem : AMem F) (fb : ℕ → ARec F) (db : ℕ → DRec D) (g : ℕ → ARec F)
    (hNB : 0 < NB) (hna2 : 2 ≤ na) (hna : na ≤ MAX_ARRAY)
    (hdvd : NB ∣ (DISTRIBUTE n NB rank P).2) :
    ∀ a, a < (DISTRIBUTE n NB rank P).1 ∨
        (DISTRIBUTE n NB rank P).1 + (DISTRIBUTE n NB rank P).2 ≤ a →
      (reduce_accumulators_pipeline O NB n na s_array rank P mem fb db g).1 a
        = mem a := by
  intro a ha
  rw [reduce_mem_spec O NB n na s_array rank P mem fb db g hNB hna2 hna]
  dsimp only
  rw [blockSpan_dvd NB _ hNB hdvd, if_neg (by omega)]

theorem reduce_frame_blockAligned_witness :
    ((0:ℕ) < 2 ∧ (2:ℕ) ≤ 2 ∧ (2:ℕ) ≤ MAX_ARRAY ∧ 2 ∣ (DISTRIBUTE 4 2 0 1).2 ∧
      ((5:ℕ) < (DISTRIBUTE 4 2 0 1).1 ∨
        (DISTRIBUTE 4 2 0 1).1 + (DISTRIBUTE 4 2 0 1).2 ≤ 5)) ∧
    (reduce_accumulators_pipeline intOps 2 4 2 4 0 1 memLin zBufA zBufD zBufA).1 5
      = memLin 5 :=
  ⟨⟨by decide, by decide, by decide, by decide, by decide⟩,
    reduce_frame_blockAligned intOps 2 4 2 4 0 1 memLin zBufA zBufD zBufA
      (by decide) (by decide) (by decide) (by decide) 5 (by decide)⟩

/-- C5: the reduction is deterministic up to its declared inputs: two
runs with the same `n`, `na`, stride, rank and rank count, and identical
array contents (the `na` arrays' records over the processed blocks)
issue the identical transfer trace and produce bit-identical output on
the processed region — regardless of the (uninitialised) contents of the
three scratch buffers — because the per-record summation is performed in
fixed increasing array-index order and never reassociated. -/
theorem reduce_deterministic (O : SpuOps F D) (NB n na s_array rank P : ℕ)
    (mem1 mem2 : AMem F)
    (fb1 : ℕ → ARec F) (db1 : ℕ → DRec D) (g1 : ℕ → ARec F)
    (fb2 : ℕ → ARec F) (db2 : ℕ → DRec D) (g2 : ℕ → ARec F)
    (hNB : 0 < NB) (hna2 : 2 ≤ na) (hna : na ≤ MAX_ARRAY)
    (hagree : ∀ r m, r < na → m < blockSpan NB (DISTRIBUTE n NB rank P).2 →
      mem1 ((DISTRIBUTE n NB rank P).1 + r * s_array + m)
        = mem2 ((DISTRIBUTE n NB rank P).1 + r * s_array + m)) :
    ((reduce_accumulators_pipeline O NB n na s_array rank P mem1 fb1 db1 g1).2
       = (reduce_accumulators_pipeline O NB n na s_array rank P mem2 fb2 db2 g2).2) ∧
    (∀ m, m < blockSpan NB (DISTRIBUTE n NB rank P).2 →
      (reduce_accumulators_pipeline O NB n na s_array rank P mem1 fb1 db1 g1).1
          ((DISTRIBUTE n NB rank P).1 + m)
        = (reduce_accumulators_pipeline O NB n na s_array rank P mem2 fb2 db2 g2).1
          ((DISTRIBUTE n NB rank P).1 + m)) := by
  constructor
  · rw [reduce_trace_spec O NB n na s_array rank P mem1 fb1 db1 g1 hna2 hna,
      reduce_trace_spec O NB n na s_array rank P mem2 fb2 db2 g2 hna2 hna]
  · intro m hm
    rw [reduce_mem_spec O NB n na s_array rank P mem1 fb1 db1 g1 hNB hna2 hna,
      reduce_mem_spec O NB n na s_array rank P mem2 fb2 db2 g2 hNB hna2 hna]
    dsimp only
    rw [if_pos (by omega), if_pos (by omega)]
    apply outVal_congr O mem1 mem2 s_array na _ (by omega)
    intro r hr
    have := hagree r m hr hm
    rw [show (DISTRIBUTE n NB rank P).1 + m + r * s_array
        = (DISTRIBUTE n NB rank P).1 + r * s_array + m from by omega]
    exact this

theorem reduce_deterministic_witness :
    ((0:ℕ) < 2 ∧ (2:ℕ) ≤ 2 ∧ (2:ℕ) ≤ MAX_ARRAY) ∧
    (reduce_accumulators_pipeline intOps 2 4 2 4 0 1 memLin zBufA zBufD zBufA).2
      = (reduce_accumulators_pipeline intOps 2 4 2 4 0 1 memLin oneBufA oneBufD oneBufA).2 :=
  ⟨⟨by decide, by decide, by decide⟩,
    (reduce_deterministic intOps 2 4 2 4 0 1 memLin memLin zBufA zBufD zBufA
      oneBufA oneBufD oneBufA (by decide) (by decide) (by decide)
      (fun r m hr hm => rfl)).1⟩

/-- C6 counterexample: with `NB = 1`, `n = 1`, `na = 2`, `s_array = 1`
and a single rank (non-empty owned range `[0, 1)`), the prime step
(lines 44-47) issues two inbound transfers, not one: its trace has
length 2 and contains the `mfc_get` of array 1's first block, refuting
both parts of the claim. -/
theorem prime_single_transfer_counterexample :
    ¬ ((primePhase 1 2 1 memLin zBufA (DISTRIBUTE 1 1 0 1).1
          ((DISTRIBUTE 1 1 0 1).1 + (DISTRIBUTE 1 1 0 1).2)).2.length = 1) ∧
    Ev.get 1 (DISTRIBUTE 1 1 0 1).1
      ∈ (primePhase 1 2 1 memLin zBufA (DISTRIBUTE 1 1 0 1).1
          ((DISTRIBUTE 1 1 0 1).1 + (DISTRIBUTE 1 1 0 1).2)).2 := by
  constructor
  · decide
  · decide

/-- C6 (amended): in the prime step, when the calling rank's owned range
is non-empty, the kernel issues exactly `na` inbound transfers before
entering the per-block loop — one per array `r = 0..na-1`, in array
order, each for array `r`'s first block (line 47 loops over all arrays,
not only array 0). -/
theorem prime_issues_all_arrays (NB na s_array : ℕ) (mem : AMem F)
    (fb : ℕ → ARec F) (i i1 : ℕ) (hi : i < i1) :
    (primePhase NB na s_array mem fb i i1).2
      = (List.range na).map (fun r => Ev.get r i) := by
  rw [primePhase, if_pos hi, primeGets_snd, ← List.range_eq_range']

theorem prime_issues_all_arrays_witness :
    ((0:ℕ) < 1) ∧
    (primePhase 1 2 1 memLin zBufA 0 1).2 = (List.range 2).map (fun r => Ev.get r 0) :=
  ⟨by decide, prime_issues_all_arrays 1 2 1 memLin zBufA 0 1 (by decide)⟩

/-- C7: the kernel never issues an inbound block transfer for a block
beyond the calling rank's owned range `[start, start+len)`: every
`mfc_get` in the trace targets a block starting at an index `b` with
`start ≤ b < start+len` (next-block prefetches are issued only when a
next block exists within the range). -/
theorem transfers_within_owned_range (O : SpuOps F D) (NB n na s_array rank P : ℕ)
    (mem : AMem F) (fb : ℕ → ARec F) (db : ℕ → DRec D) (g : ℕ → ARec F) :
    ∀ r b, Ev.get r b
        ∈ (reduce_accumulators_pipeline O NB n na s_array rank P mem fb db g).2 →
      (DISTRIBUTE n NB rank P).1 ≤ b ∧
        b < (DISTRIBUTE n NB rank P).1 + (DISTRIBUTE n NB rank P).2 := by
  intro r b hb
  by_cases hval : 2 ≤ na ∧ na ≤ MAX_ARRAY
  · rw [reduce_trace_spec O NB n na s_array rank P mem fb db g hval.1 hval.2] at hb
    rcases List.mem_append.mp hb with h | h
    · by_cases hlen : 0 < (DISTRIBUTE n NB rank P).2
      · rw [if_pos hlen] at h
        obtain ⟨rr, hrr, heq⟩ := List.mem_map.mp h
        cases heq
        omega
      · rw [if_neg hlen] at h
        simp at h
    · exact blockTrace_get NB na _ _ _ r b h
  · rw [reduce_eq_of_bad_na O NB n na s_array rank P mem fb db g (by omega)] at hb
    simp at hb

theorem transfers_within_owned_range_witness :
    (Ev.get 0 0 ∈ (reduce_accumulators_pipeline intOps 1 1 2 1 0 1 memLin
        zBufA zBufD zBufA).2) ∧
    ((DISTRIBUTE 1 1 0 1).1 ≤ 0 ∧ 0 < (DISTRIBUTE 1 1 0 1).1 + (DISTRIBUTE 1 1 0 1).2) :=
  ⟨by decide,
    transfers_within_owned_range intOps 1 1 2 1 0 1 memLin zBufA zBufD zBufA 0 0
      (by decide)⟩

/-- C8: end-to-end scenario — `n = 64`, `na = 3`, block size 32, a
single rank, array 0 all ones, array 1 all twos, array 2 all threes
(every field): the kernel's output is exactly 6 in every record and
every field lane.  Exact integer arithmetic (`intOps`) models the IEEE
arithmetic faithfully here because all values are small integers, on
which conversion, addition and rounding are exact — so the result is the
bit pattern of 6.0f. -/
theorem reduce_all_sixes :
    ∀ a, a < 64 → ∀ (q : Fin 3) (l : Fin 4),
      (reduce_accumulators_pipeline intOps 32 64 3 64 0 1 memC8 zBufA zBufD zBufA).1
          a q l = 6 := by
  intro a ha q l
  rw [reduce_mem_spec intOps 32 64 3 64 0 1 memC8 zBufA zBufD zBufA
    (by decide) (by decide) (by decide)]
  dsimp only
  rw [if_pos ?hin]
  case hin =>
    have h1 : (DISTRIBUTE 64 32 0 1).1 = 0 := by decide
    have h2 : blockSpan 32 (DISTRIBUTE 64 32 0 1).2 = 64 := by decide
    omega
  unfold outVal
  have e1 : memC8 a q l = 1 := by unfold memC8; rw [if_pos ha]
  have e2 : memC8 (a + 1 * 64) q l = 2 := by
    unfold memC8
    rw [if_neg (by omega), if_pos (by omega)]
  have e3 : memC8 (a + 2 * 64) q l = 3 := by
    unfold memC8
    rw [if_neg (by omega), if_neg (by omega)]
  rw [show List.range' 1 (3 - 1) = [1, 2] from rfl]
  rw [List.foldl_cons, List.foldl_cons, List.foldl_nil, e1, e2, e3]
  decide

theorem reduce_all_sixes_witness :
    ((0:ℕ) < 64) ∧
    (reduce_accumulators_pipeline intOps 32 64 3 64 0 1 memC8 zBufA zBufD zBufA).1
        0 0 0 = 6 :=
  ⟨by decide, reduce_all_sixes 0 (by decide) 0 0⟩

/-- C9: in the Langevin thermostat pipeline, the particle index ranges
`[round(np·r/P), round(np·(r+1)/P))` (rounding modelled in exact
arithmetic) assigned to pipeline ranks `r = 0..P-1` are pairwise
disjoint with union exactly `[0, np)`; the host straggler rank
(`pipeline_rank = n_pipeline`, line 75) returns without touching any
particle, and each rank only writes particles inside its own range — so
each particle's momentum is updated exactly once per application. -/
theorem langevin_partition (decay drive : ℚ) (rng : ℕ → ℚ) (np P : ℕ)
    (p : ℕ → ℚ × ℚ × ℚ) (hP : 0 < P) :
    (∀ x, x < np ↔ ∃ r, r < P ∧ langevin_bounds np P r ≤ x ∧
        x < langevin_bounds np P (r + 1)) ∧
    (∀ r s, r < s → langevin_bounds np P (r + 1) ≤ langevin_bounds np P s) ∧
    (∀ j, langevin_pipeline decay drive rng np P P p j = p j) ∧
    (∀ r j, j < langevin_bounds np P r ∨ langevin_bounds np P (r + 1) ≤ j →
      langevin_pipeline decay drive rng np r P p j = p j) := by
  refine ⟨?_, ?_, ?_, ?_⟩
  · intro x
    constructor
    · intro hx
      exact exists_interval (fun r => langevin_bounds np P r) P x
        (langevin_bounds_zero np P hP)
        (by show x < langevin_bounds np P P; rw [langevin_bounds_top np P hP]; exact hx)
    · rintro ⟨r, hr, h1, h2⟩
      have := langevin_bounds_mono np P (r + 1) P (by omega)
      rw [langevin_bounds_top np P hP] at this
      omega
  · intro r s hrs
    exact langevin_bounds_mono np P (r + 1) s (by omega)
  · intro j
    rw [langevin_pipeline, if_pos rfl]
  · intro r j hj
    rw [langevin_pipeline]
    by_cases hr : r = P
    · rw [if_pos hr]
    · rw [if_neg hr]
      apply particleLoop_frame
      have := langevin_bounds_mono np P r (r + 1) (by omega)
      omega

theorem langevin_partition_witness :
    ((0:ℕ) < 2) ∧ langevin_pipeline 0 0 rng0 4 2 2 p0 0 = p0 0 :=
  ⟨by decide, (langevin_partition 0 0 rng0 4 2 p0 (by decide)).2.2.1 0⟩

/-- C10: `apply_langevin` leaves every particle's momentum unchanged
whenever the operator's interval is less than 1 or the current step is
not a multiple of the interval (line 86); the pipelines are executed
only on steps with `step % interval = 0` and `interval ≥ 1`. -/
theorem apply_langevin_interval_guard (decay drive : ℚ) (rng : ℕ → ℕ → ℚ) (np : ℕ)
    (interval step : ℤ) (P : ℕ) (p : ℕ → ℚ × ℚ × ℚ) :
    ((interval < 1 ∨ step % interval ≠ 0) →
      ∀ j, apply_langevin decay drive rng np interval step P p j = p j) ∧
    (1 ≤ interval → step % interval = 0 →
      apply_langevin decay drive rng np interval step P p
        = exec_langevin_pipelines decay drive rng np P p) := by
  constructor
  · intro h j
    rw [apply_langevin, if_pos h]
  · intro h1 h2
    rw [apply_langevin, if_neg (by push_neg; exact ⟨by omega, h2⟩)]

theorem apply_langevin_interval_guard_witness :
    ((0:ℤ) < 1 ∨ (5:ℤ) % 0 ≠ 0) ∧
    apply_langevin 0 0 rngs0 4 0 5 2 p0 0 = p0 0 :=
  ⟨Or.inl (by decide),
    (apply_langevin_interval_guard 0 0 rngs0 4 0 5 2 p0).1 (Or.inl (by decide)) 0⟩

end VPIC
